import Mathlib

/-
Shallow embedding of cornice/pyramidhook.py (repository scanplus/cornice).

The module expands declarative service definitions into concrete pyramid
view registrations (register_service_views with the helpers
_pop_complex_predicates, _pop_predicate_definition, _mungle_view_args),
provides a per-service fallback view producing the 405/406/415 error
responses (get_fallback_view), and applies response post-processing
filters (apply_filters).

Python dictionaries are modelled as insertion-ordered association lists
with unique keys; the mutable Python list objects the module manipulates
(custom_predicates lists and validators lists) live in an explicit heap
(Store) so that reference sharing and in-place mutation are observable.
Helpers from cornice.util, cornice.service and cornice.cors are not part
of the sources and are modelled from the spec; each such definition says
so in its doc comment.
-/

/-- The two complex predicate kinds handled by the expansion machinery. -/
inductive PredKind
  | accept
  | content_type
deriving DecidableEq, Repr

/-- Key of a predicate kind in a view-argument dictionary. -/
def PredKind.key : PredKind → String
  | .accept => "accept"
  | .content_type => "content_type"

/-- A declared accept or content_type value: a media-type string or a Python
callable, the latter identified abstractly by a number. -/
inductive PredValue
  | str (s : String)
  | call (id : Nat)
deriving DecidableEq, Repr

/-- A custom predicate checker built by _mungle_view_args:
functools.partial of the per-kind matcher function applied to the declared
callable (line 339 of pyramidhook.py). -/
structure Checker where
  kind : PredKind
  fn : Nat
deriving DecidableEq, Repr

/-- A Python value stored in a view-argument dictionary. Scalars and
already deep-copied immutable sequences are held directly; the mutable
list objects (custom_predicates and validators) are held as references
into the Store heap. Remaining values (schema objects, permissions and so
on) are opaque. -/
inductive ArgVal
  | v (x : PredValue)
  | vlist (xs : List PredValue)
  | predsRef (r : Nat)
  | valsRef (r : Nat)
  | boolV (b : Bool)
  | other (n : Nat)
deriving DecidableEq, Repr

/-- A Python dict of view arguments: an insertion-ordered association list.
Real dicts have unique keys; the operations below implement dict reads,
writes and deletions under that discipline. -/
abbrev Args := List (String × ArgVal)

/-- args.get(k): first entry with the key. -/
def dictGet (d : Args) (k : String) : Option ArgVal :=
  match d with
  | [] => none
  | (k', x) :: rest => if k' = k then some x else dictGet rest k

/-- The Python test "k in args". -/
def hasKey (d : Args) (k : String) : Bool :=
  (dictGet d k).isSome

/-- Deletion of a key, as done by args.pop(k) and del args[k]; removes
every pair carrying the key, which on a unique-key dict is the one pair. -/
def dictErase (d : Args) (k : String) : Args :=
  d.filter fun kv => kv.1 ≠ k

/-- Dict assignment args[k] = x: an existing key keeps its position and
gets the new value, a new key is appended at the end. -/
def dictSet (d : Args) (k : String) (x : ArgVal) : Args :=
  match d with
  | [] => [(k, x)]
  | (k', y) :: rest =>
    if k' = k then (k, x) :: rest else (k', y) :: dictSet rest k x

/-- The heap of mutable Python list objects manipulated by the module:
custom_predicates lists (lists of checkers) and validators lists
(validator callables, identified by numbers). -/
structure Store where
  predLists : List (List Checker)
  valLists : List (List Nat)
deriving DecidableEq, Repr

/-- Dereference a custom_predicates list. -/
def Store.getPred (st : Store) (r : Nat) : List Checker :=
  st.predLists.getD r []

/-- Allocate a fresh custom_predicates list object. -/
def Store.allocPred (st : Store) (l : List Checker) : Nat × Store :=
  (st.predLists.length, ⟨st.predLists ++ [l], st.valLists⟩)

/-- In-place predicates.append(checker) on the list object at r. -/
def Store.appendPred (st : Store) (r : Nat) (c : Checker) : Store :=
  ⟨st.predLists.set r (st.getPred r ++ [c]), st.valLists⟩

/-- Dereference a validators list. -/
def Store.getVal (st : Store) (r : Nat) : List Nat :=
  st.valLists.getD r []

/-- Allocate a fresh validators list object. -/
def Store.allocVal (st : Store) (l : List Nat) : Nat × Store :=
  (st.valLists.length, ⟨st.predLists, st.valLists ++ [l]⟩)

/-- In-place validators.insert(0, v) on the list object at r
(line 226 of pyramidhook.py). -/
def Store.insertVal (st : Store) (r : Nat) (x : Nat) : Store :=
  ⟨st.predLists, st.valLists.set r (x :: st.getVal r)⟩

/-- Modelled from the spec: to_list from cornice.util is not under src.
Per spec 4.1 and the data model, a scalar accept or content_type
declaration is coerced into a single-element sequence and a declared
sequence is kept as it is; the empty-tuple default that
args.pop(kind, ()) supplies for a missing key yields the empty list.
Declared accept and content_type values are scalars or sequences of
scalars per spec section 3, so the remaining value shapes do not occur
for these keys and map to the empty list. -/
def to_list : Option ArgVal → List PredValue
  | some (.v x) => [x]
  | some (.vlist xs) => xs
  | _ => []

/-- The transient predicate-definition record, the Python dict with the
keys "kind" and "value" built by _pop_predicate_definition. -/
structure PredDef where
  kind : PredKind
  value : PredValue
deriving DecidableEq, Repr

/-- Lines 298..309: pop the kind key from the argument dict (with an
empty default), coerce through to_list, and map every value into a
predicate-definition record. Returns the records and the dict after the
pop. -/
def _pop_predicate_definition (args : Args) (kind : PredKind) :
    List PredDef × Args :=
  ((to_list (dictGet args kind.key)).map fun value => ⟨kind, value⟩,
   dictErase args kind.key)

/-- itertools.product over a list of lists, tuples represented as lists,
with the rightmost factor varying fastest. -/
def listProd : List (List PredDef) → List (List PredDef)
  | [] => [[]]
  | l :: ls => l.flatMap fun x => (listProd ls).map fun rest => x :: rest

/-- Lines 272..295: build the accept and content_type predicate lists,
drop empty lists from the product input (filter(None, ...)), take the
cartesian product, and drop empty tuples from the output (the lone empty
tuple that the product of zero lists yields). Returns the combinations
and the dict after both pops. -/
def _pop_complex_predicates (args : Args) : List (List PredDef) × Args :=
  let p1 := _pop_predicate_definition args .accept
  let p2 := _pop_predicate_definition p1.2 .content_type
  let product_input := [p1.1, p2.1].filter fun l => !l.isEmpty
  let predicate_product := (listProd product_input).filter fun t => !t.isEmpty
  (predicate_product, p2.2)

/-- One iteration of the loop in _mungle_view_args (lines 330..344) for a
single predicate entry. A callable value turns into a checker appended in
place to the custom_predicates list fetched from the dict (a fresh empty
list when the key is absent); a scalar value is assigned to the kind key
directly. -/
def munglePredicate (st : Store) (args : Args) (entry : PredDef) :
    Store × Args :=
  match entry.value with
  | .str s => (st, dictSet args entry.kind.key (.v (.str s)))
  | .call id =>
    match dictGet args "custom_predicates" with
    | some (.predsRef r) =>
        (st.appendPred r ⟨entry.kind, id⟩,
         dictSet args "custom_predicates" (.predsRef r))
    | _ =>
        let a := st.allocPred [⟨entry.kind, id⟩]
        (a.2, dictSet args "custom_predicates" (.predsRef a.1))

/-- Lines 312..344: resolve every predicate entry of one combination
against the view-argument dict. -/
def _mungle_view_args (st : Store) (args : Args)
    (predicate_list : List PredDef) : Store × Args :=
  predicate_list.foldl (fun acc entry => munglePredicate acc.1 acc.2 entry)
    (st, args)

/-- The synthetic catch-all combination for an empty content-type header
appended at line 246 of register_service_views. -/
def empty_contenttype : List (List PredDef) :=
  [[⟨.content_type, .str ""⟩]]

/-- Lines 241..262 of register_service_views for one definition: run the
cartesian expansion on the stripped argument dict; with combinations
present, iterate over them plus the synthetic empty content-type
combination, munging and registering the dict once per combination;
without combinations register the dict once unmodified. The per-iteration
dict copy in the source is shallow, so list values stay shared
references, which the model reflects by reusing the heap references; the
loop also rebinds the args name, so each iteration starts from the dict
produced by the previous one, exactly as in the source. Returns the final
store and the argument dict of every add_view call, in call order.
registerStep is the loop body at lines 248..256: shallow-copy the dict,
evaluate the combination against it, record the add_view call. -/
def registerStep (acc : Store × Args × List Args)
    (predicate_list : List PredDef) : Store × Args × List Args :=
  let m := _mungle_view_args acc.1 acc.2.1 predicate_list
  (m.1, m.2, acc.2.2 ++ [m.2])

def registerDefinitionViews (st : Store) (args : Args) :
    Store × List Args :=
  let p := _pop_complex_predicates args
  if p.1.isEmpty then
    (st, [p.2])
  else
    let out := (p.1 ++ empty_contenttype).foldl registerStep (st, p.2, [])
    (out.1, out.2.2)

/-- The custom_predicates list a registered argument dict exhibits once
the run finished: its shared list object dereferenced through the final
store, the empty list when the key is absent. -/
def observedPreds (st : Store) (args : Args) : List Checker :=
  match dictGet args "custom_predicates" with
  | some (.predsRef r) => st.getPred r
  | _ => []

/-
Data model for the service and the request, and the fallback view
(get_fallback_view, lines 27..95).
-/

/-- One (method, view, args) triple of a service. The view callable is
identified abstractly by a number. -/
structure Definition where
  method : String
  view : Nat
  args : Args
deriving DecidableEq, Repr

/-- The Service collaborator as read (and, as it turns out, written) by
this module. The error handler is the configured callable, identified
abstractly; route_attrs are the service attributes pyramid route
predicates are read from via hasattr and getattr. -/
structure Service where
  name : String
  path : String
  pyramid_route : Option String
  factory : Option Nat
  route_attrs : List (String × Nat)
  cors_enabled : Bool
  error_handler : Nat
  definitions : List Definition
deriving DecidableEq, Repr

/-- Modelled from the spec: Service.defined_methods from cornice.service
is not under src. Per the spec data model it is the set of HTTP methods
with at least one definition; the source keeps first-occurrence order,
and only membership matters to this module. -/
def Service.defined_methods (s : Service) : List String :=
  s.definitions.foldl
    (fun acc d => if d.method ∈ acc then acc else acc ++ [d.method]) []

/-- The scalar (non-callable) values of a declared predicate list. -/
def scalarValues (xs : List PredValue) : List String :=
  xs.filterMap fun x =>
    match x with
    | .str s => some s
    | .call _ => none

/-- Modelled from the spec: Service.get_acceptable from cornice.service
is not under src. With filter_callables set it returns the declared
accept values of every definition of the method with the callables
dropped, leaving the concrete offers; the source also deduplicates, which
only affects the unspecified ordering and not membership. -/
def Service.get_acceptable (s : Service) (method : String) : List String :=
  (s.definitions.filter fun d => d.method == method).flatMap fun d =>
    scalarValues (to_list (dictGet d.args "accept"))

/-- Modelled from the spec: Service.get_contenttypes from cornice.service
is not under src; the content-type analogue of Service.get_acceptable. -/
def Service.get_contenttypes (s : Service) (method : String) : List String :=
  (s.definitions.filter fun d => d.method == method).flatMap fun d =>
    scalarValues (to_list (dictGet d.args "content_type"))

/-- One structured entry of the error collector. The source formats the
offending list of media types into an ascii message string through
"should be one of {0}".format(...); since the list comes out of
list(set(...)), whose ordering CPython leaves unspecified, the model
keeps the formatted list itself, whose membership is the specified
content. -/
structure ErrorEntry where
  location : String
  name : String
  described : List String
deriving DecidableEq, Repr

/-- The error collector of a request: entries plus an HTTP status. -/
structure Errors where
  entries : List ErrorEntry
  status : Nat
deriving DecidableEq, Repr

/-- list(set(l)) as used at lines 56 and 74: deduplication; CPython set
iteration order is unspecified, so only membership of the result is
meaningful, and the model picks the ordering of List.dedup. -/
def pySet (l : List String) : List String :=
  l.dedup

/-- The request as seen by the fallback view. The Accept header is
modelled by the predicate acceptsOffer: webob acceptable_offers(offers)
is non-empty exactly when some offer satisfies it. info carries the two
request-time override lists read at lines 55 and 73. -/
structure Request where
  method : String
  acceptsOffer : String → Bool
  content_type : String
  info_acceptable : List String
  info_supported_contenttypes : List String
  errors : Errors

/-- What the fallback view raises: a 405 with the Allow header, the
response of the configured error handler invoked on the request carrying
the final error-collector state, or the pyramid PredicateMismatch. -/
inductive FallbackResult
  | methodNotAllowed (allow : List String)
  | raisedError (handler : Nat) (errors : Errors)
  | predicateMismatch (name : String)
deriving DecidableEq, Repr

/-- The content-type half of one loop iteration of _fallback_view
(lines 68..84): with a content_type constraint declared, extend the
supported list by the union over the definitions of the method plus the
request-time override, deduplicate, and raise the 415 error response when
the request content type matches none of it. -/
def checkContentType (s : Service) (req : Request) (d : Definition)
    (acceptable supported : List String) (errors : Errors) :
    Except FallbackResult (List String × List String) :=
  if hasKey d.args "content_type" then
    let supported := pySet (supported ++ s.get_contenttypes req.method
      ++ req.info_supported_contenttypes)
    if req.content_type ∈ supported then .ok (acceptable, supported)
    else .error (.raisedError s.error_handler
      ⟨errors.entries ++ [⟨"header", "Content-Type", supported⟩], 415⟩)
  else .ok (acceptable, supported)

/-- One loop iteration of _fallback_view (lines 47..84): skip definitions
of other methods; with an accept constraint declared, extend the
acceptable list by the union over the definitions of the method plus the
request-time override, deduplicate, and raise the 406 error response when
the Accept header accepts none of the offers; otherwise fall through to
the content-type check. -/
def checkDefinition (s : Service) (req : Request) (d : Definition)
    (acceptable supported : List String) (errors : Errors) :
    Except FallbackResult (List String × List String) :=
  if d.method == req.method then
    if hasKey d.args "accept" then
      let acceptable := pySet (acceptable ++ s.get_acceptable req.method
        ++ req.info_acceptable)
      if acceptable.any req.acceptsOffer then
        checkContentType s req d acceptable supported errors
      else .error (.raisedError s.error_handler
        ⟨errors.entries ++ [⟨"header", "Accept", acceptable⟩], 406⟩)
    else checkContentType s req d acceptable supported errors
  else .ok (acceptable, supported)

/-- The definitions loop of _fallback_view, threading the accumulated
acceptable and supported lists; falling off the loop reaches the
PredicateMismatch raise at line 94. -/
def fallbackLoop (s : Service) (req : Request) (errors : Errors) :
    List Definition → List String → List String → FallbackResult
  | [], _, _ => .predicateMismatch s.name
  | d :: rest, acceptable, supported =>
    match checkDefinition s req d acceptable supported errors with
    | .error res => res
    | .ok st => fallbackLoop s req errors rest st.1 st.2

/-- Lines 36..94: the fallback view. A method outside the defined methods
raises the 405 whose allow header is the defined-methods list; otherwise
the definitions are scanned for the representation mismatch. -/
def _fallback_view (s : Service) (req : Request) : FallbackResult :=
  if req.method ∈ s.defined_methods then
    fallbackLoop s req req.errors s.definitions [] []
  else
    .methodNotAllowed s.defined_methods

/-
Response post-processing (apply_filters, lines 98..114).
-/

/-- A Python exception as far as the filter loop cares: the TypeError the
except clause catches, or any other exception. -/
inductive PyExc
  | typeError
  | otherError (n : Nat)
deriving DecidableEq, Repr

/-- A filter callable, by its behaviour under the two call shapes of the
loop: called with (response, request) or with just (response), each call
either returning the new response or raising. Responses are opaque
numbers. -/
structure PyFilter where
  callTwo : Nat → Request → Except PyExc Nat
  callOne : Nat → Except PyExc Nat

/-- A declared filter: a direct callable or a method name to resolve
against the bound view instance. -/
inductive FilterSpec
  | named (s : String)
  | direct (f : PyFilter)

/-- Lines 107..110, the heart of the loop body: call the filter with
(response, request); when that raises TypeError, call it once more with
only the response, and let that second outcome through, result or
exception. Any other exception from the first call propagates. -/
def runFilter (response : Nat) (request : Request) (f : PyFilter) :
    Except PyExc Nat :=
  match f.callTwo response request with
  | .ok r => .ok r
  | .error .typeError => f.callOne response
  | .error e => .error e

/-- Calling a plain string raises TypeError under either call shape,
which is what happens at lines 108 and 110 when a named filter has no
instance to resolve against. -/
def stringAsFilter : PyFilter :=
  ⟨fun _ _ => .error .typeError, fun _ => .error .typeError⟩

/-- Line 105..106: a string filter is resolved through getattr on the
bound instance when one exists. -/
def resolveFilter (ob : Option (String → PyFilter)) :
    FilterSpec → PyFilter
  | .direct f => f
  | .named s =>
    match ob with
    | some o => o s
    | none => stringAsFilter

/-- The filter loop of lines 104..110 over the declared filters, threading
the response; an uncaught exception aborts the loop and propagates. -/
def runFilters (request : Request) (ob : Option (String → PyFilter)) :
    Nat → List FilterSpec → Except PyExc Nat
  | response, [] => .ok response
  | response, fs :: rest =>
    match runFilter response request (resolveFilter ob fs) with
    | .ok r => runFilters request ob r rest
    | .error e => .error e

/-- Lines 98..114: apply_filters. Outside a matched route, or without a
current service, the response passes through untouched; otherwise the
declared filters run, and with CORS enabled the external post-request
augmentation (an opaque response transformation here) runs last. -/
def apply_filters (corsPost : Nat → Nat) (matched_route : Bool)
    (service : Option Service) (filters : List FilterSpec)
    (ob : Option (String → PyFilter)) (request : Request)
    (response : Nat) : Except PyExc Nat :=
  if matched_route then
    match service with
    | some s =>
      match runFilters request ob response filters with
      | .ok r => .ok (if s.cors_enabled then corsPost r else r)
      | .error e => .error e
    | none => .ok response
  else .ok response

/-
The full register_service_views (lines 159..269).
-/

/-- Modelled from the spec: CORS_PARAMETERS from cornice.cors is not under
src; the spec calls them the CORS-specific argument keys that pyramid does
not understand. -/
def CORS_PARAMETERS : List String :=
  ["cors_headers", "cors_enabled", "cors_origins", "cors_credentials",
   "cors_max_age", "cors_expose_all_headers"]

/-- Line 186: the cornice-specific argument keys pyramid does not know
about. -/
def cornice_parameters : List String :=
  ["filters", "validators", "schema", "klass", "error_handler"]
    ++ CORS_PARAMETERS

/-- Modelled from the spec: Service.add_view from cornice.service is not
under src. Registering the CORS preflight view at line 178 appends one
definition for the uppercased method whose arguments carry the
no-permission marker and the service-level default of a fresh empty
validators list. -/
def Service.add_view (st : Store) (s : Service) (method : String)
    (view : Nat) : Store × Service :=
  let a := st.allocVal []
  (a.2, { s with definitions := s.definitions ++
    [⟨method.toUpper, view,
      [("permission", .v (.str "NO_PERMISSION_REQUIRED")),
       ("validators", .valsRef a.1)]⟩] })

/-- copy.deepcopy for a single argument value as used at line 221: the
mutable heap lists get fresh copies, immutable values are returned as
they are. -/
def deepcopyVal (st : Store) (x : ArgVal) : Store × ArgVal :=
  match x with
  | .predsRef r =>
    let a := st.allocPred (st.getPred r)
    (a.2, .predsRef a.1)
  | .valsRef r =>
    let a := st.allocVal (st.getVal r)
    (a.2, .valsRef a.1)
  | x => (st, x)

/-- One entry of the copy loop at lines 219..221: a cornice-parameter
value is kept shared, any other value is deep-copied. -/
def deepcopyStep (acc : Store × Args) (kv : String × ArgVal) :
    Store × Args :=
  if kv.1 ∈ cornice_parameters then (acc.1, acc.2 ++ [kv])
  else
    let c := deepcopyVal acc.1 kv.2
    (c.1, acc.2 ++ [(kv.1, c.2)])

/-- Lines 215..221: shallow-copy the definition dict and deep-copy every
value whose key is not a cornice parameter, so that only the cornice
parameters (validators among them) stay shared with the stored
definition. -/
def deepcopyArgs (st : Store) (args : Args) : Store × Args :=
  args.foldl deepcopyStep (st, [])

/-- Line 226: args["validators"].insert(0, cors_validator), an in-place
mutation of the list object shared with the stored definition. Cornice
guarantees every definition carries a validators list (the service-level
default), so the remaining shapes do not occur. -/
def insertCorsValidator (st : Store) (args : Args) (corsV : Nat) : Store :=
  match dictGet args "validators" with
  | some (.valsRef r) => st.insertVal r corsV
  | _ => st

/-- Lines 230..239: delete the cornice parameters from the dict, then pop
every route-only predicate key. -/
def stripKeys (args : Args) (keys : List String) : Args :=
  keys.foldl (fun a k => dictErase a k) args

/-- The pyramid configurator as read by register_service_views: the route
prefix and the registered route- and view-predicate names. -/
structure Config where
  route_prefix : String
  route_predicates : List String
  view_predicates : List String
deriving DecidableEq, Repr

/-- What one config.add_view call registered: the decorated view of a
definition or the fallback view of the service, the route name, and the
view arguments. -/
inductive RegView
  | view (decorated : Nat)
  | fallbackFor (serviceName : String)
deriving DecidableEq, Repr

/-- One recorded view registration. -/
structure Registration where
  regView : RegView
  route_name : String
  args : Args
deriving DecidableEq, Repr

/-- One iteration of the definitions loop at lines 213..262 (with the
external decorate_view step keeping the view identity): copy the stored
dict with deepcopyArgs, set request_method, insert the CORS validator in
place when CORS is enabled, strip the cornice parameters and the
route-only predicate keys, expand and register through
registerDefinitionViews, and record the emitted add_view calls. -/
def registerDefinitionStep (corsValidator : Nat) (config : Config)
    (service : Service) (route_name : String)
    (acc : Store × List Registration) (d : Definition) :
    Store × List Registration :=
  let c := deepcopyArgs acc.1 d.args
  let args := dictSet c.2 "request_method" (.v (.str d.method))
  let st :=
    if service.cors_enabled then insertCorsValidator c.1 args corsValidator
    else c.1
  let args := stripKeys args cornice_parameters
  let args := stripKeys args
    (config.route_predicates.filter fun p => p ∉ config.view_predicates)
  let emitted := registerDefinitionViews st args
  (emitted.1, acc.2 ++ emitted.2.map fun a =>
    ⟨.view d.view, route_name, a⟩)

/-- Everything register_service_views produced: the final heap, the
service object afterwards (the source mutates it in the CORS branch), the
view registrations in order, the route registrations, and the key under
which the service entered the cornice services registry. -/
structure RegisterOutput where
  store : Store
  service : Service
  registrations : List Registration
  routes_added : List (String × String × List (String × Nat))
  registry_key : String
deriving Repr

/-- Lines 159..269: register_service_views. The CORS validator and the
preflight view produced by the cornice.cors collaborators enter as
abstract parameters; decorate_view is the external decoration step and
keeps the view identity. Per definition the source shallow-copies the
stored dict, deep-copies the non-cornice values, sets request_method,
inserts the CORS validator in place when CORS is enabled, strips the
cornice parameters and the route-only predicate keys, and hands the rest
to the expansion loop of registerDefinitionViews; a service with
definitions gets the fallback view registered last with no permission
required and csrf disabled. -/
def register_service_views (corsValidator preflightView : Nat)
    (config : Config) (st : Store) (service : Service) : RegisterOutput :=
  let route_name :=
    match service.pyramid_route with
    | some r => r
    | none => service.name
  let registry_key :=
    match service.pyramid_route with
    | some r => "__cornice" ++ r
    | none => config.route_prefix ++ service.path
  let osv :=
    if service.cors_enabled = true
        ∧ "OPTIONS" ∉ service.defined_methods then
      Service.add_view st service "options" preflightView
    else (st, service)
  let st := osv.1
  let service := osv.2
  let route_args : List (String × Nat) :=
    (match service.factory with
     | some f => [("factory", f)]
     | none => []) ++
    (config.route_predicates.filter fun p => p ≠ "accept").filterMap
      fun p => (service.route_attrs.lookup p).map fun x => (p, x)
  let routes_added :=
    match service.pyramid_route with
    | some _ => []
    | none => [(route_name, service.path, route_args)]
  let loopOut := service.definitions.foldl
    (registerDefinitionStep corsValidator config service route_name)
    (st, [])
  let regs :=
    if service.definitions.isEmpty then loopOut.2
    else loopOut.2 ++
      [⟨.fallbackFor service.name, route_name,
        [("permission", .v (.str "NO_PERMISSION_REQUIRED")),
         ("require_csrf", .boolV false)]⟩]
  ⟨loopOut.1, service, regs, routes_added, registry_key⟩


/-
Dictionary lemmas.
-/

theorem dictGet_dictErase_self (d : Args) (k : String) :
    dictGet (dictErase d k) k = none := by
  induction d with
  | nil => rfl
  | cons kv rest ih =>
    obtain ⟨a, b⟩ := kv
    by_cases hk : a = k
    · subst hk
      simpa [dictErase, List.filter_cons] using ih
    · simpa [dictErase, List.filter_cons, hk, dictGet] using ih

theorem dictGet_dictErase_ne (d : Args) (k k' : String) (h : k' ≠ k) :
    dictGet (dictErase d k) k' = dictGet d k' := by
  induction d with
  | nil => rfl
  | cons kv rest ih =>
    obtain ⟨a, b⟩ := kv
    by_cases hk : a = k
    · subst hk
      simpa [dictErase, List.filter_cons, dictGet, Ne.symm h] using ih
    · by_cases hk' : a = k'
      · simp [dictErase, List.filter_cons, hk, dictGet, hk', h]
      · simpa [dictErase, List.filter_cons, hk, dictGet, hk'] using ih

theorem dictGet_dictSet_self (d : Args) (k : String) (x : ArgVal) :
    dictGet (dictSet d k x) k = some x := by
  induction d with
  | nil => simp [dictSet, dictGet]
  | cons kv rest ih =>
    obtain ⟨a, b⟩ := kv
    by_cases hk : a = k
    · simp [dictSet, hk, dictGet]
    · simpa [dictSet, hk, dictGet] using ih

theorem dictGet_dictSet_ne (d : Args) (k k' : String) (x : ArgVal)
    (h : k' ≠ k) : dictGet (dictSet d k x) k' = dictGet d k' := by
  induction d with
  | nil => simp [dictSet, dictGet, Ne.symm h]
  | cons kv rest ih =>
    obtain ⟨a, b⟩ := kv
    by_cases hk : a = k
    · subst hk
      simp [dictSet, dictGet, Ne.symm h]
    · by_cases hk' : a = k'
      · simp [dictSet, hk, dictGet, hk', h]
      · simpa [dictSet, hk, dictGet, hk'] using ih

theorem keys_dictErase (d : Args) (k : String) :
    (dictErase d k).map Prod.fst = (d.map Prod.fst).filter (fun s => s ≠ k) := by
  induction d with
  | nil => rfl
  | cons kv rest ih =>
    obtain ⟨a, b⟩ := kv
    by_cases hk : a = k
    · simpa [dictErase, List.filter_cons, hk] using ih
    · simpa [dictErase, List.filter_cons, hk] using ih

/-
Expansion lemmas: a closed form for the combination list of
_pop_complex_predicates.
-/

theorem flatMap_single (l : List PredDef) (f : PredDef → List PredDef) :
    (l.flatMap fun x => [f x]) = l.map f := by
  induction l with
  | nil => rfl
  | cons x xs ih => rw [List.flatMap_cons, ih]; rfl

theorem listProd_one (l : List PredDef) :
    listProd [l] = l.map fun x => [x] := by
  have h : listProd [l] = l.flatMap fun x => [[x]] := by
    simp only [listProd, List.map_cons, List.map_nil]
  rw [h]
  exact flatMap_single l fun x => [x]

theorem listProd_two (l1 l2 : List PredDef) :
    listProd [l1, l2] = l1.flatMap fun a => l2.map fun b => [a, b] := by
  induction l1 with
  | nil => rfl
  | cons x xs ih =>
    have h1 : listProd [x :: xs, l2]
        = ((listProd [l2]).map fun rest => x :: rest) ++ listProd [xs, l2] :=
      List.flatMap_cons ..
    rw [h1, ih, listProd_one, List.map_map, List.flatMap_cons]
    rfl

theorem filter_nonempty_of_forall (l : List (List PredDef))
    (h : ∀ t ∈ l, t ≠ []) : l.filter (fun t => !t.isEmpty) = l := by
  induction l with
  | nil => rfl
  | cons t rest ih =>
    have ht := h t (by simp)
    cases t with
    | nil => exact absurd rfl ht
    | cons x xs =>
      simp only [List.filter_cons, List.isEmpty_cons, Bool.not_false, if_pos]
      rw [ih fun t htm => h t (by simp [htm])]

theorem prod_one_filter (B : List PredValue) (f : PredValue → PredDef) :
    ((listProd [B.map f]).filter fun t => !t.isEmpty)
      = B.map fun v => [f v] := by
  rw [listProd_one, List.map_map]
  show ((B.map fun v => [f v]).filter fun t => !t.isEmpty) = B.map fun v => [f v]
  refine filter_nonempty_of_forall _ fun t ht => ?_
  rcases List.mem_map.mp ht with ⟨v, _, rfl⟩
  simp

theorem prod_two_filter (A B : List PredValue) (f g : PredValue → PredDef) :
    ((listProd [A.map f, B.map g]).filter fun t => !t.isEmpty)
      = A.flatMap fun a => B.map fun b => [f a, g b] := by
  rw [listProd_two]
  have heq : ((A.map f).flatMap fun a => (B.map g).map fun b => [a, b])
      = A.flatMap fun a => B.map fun b => [f a, g b] := by
    induction A with
    | nil => rfl
    | cons x xs ih =>
      rw [List.map_cons, List.flatMap_cons, List.flatMap_cons, ih,
        List.map_map]
      rfl
  rw [heq]
  refine filter_nonempty_of_forall _ fun t ht => ?_
  rcases List.mem_flatMap.mp ht with ⟨a, _, hm⟩
  rcases List.mem_map.mp hm with ⟨b, _, rfl⟩
  simp

/-- Closed form of the combination list computed by
_pop_complex_predicates, in terms of the two declared value lists. -/
def pcCombos (A B : List PredValue) : List (List PredDef) :=
  if A = [] then B.map fun v => [⟨.content_type, v⟩]
  else if B = [] then A.map fun v => [⟨.accept, v⟩]
  else A.flatMap fun a => B.map fun b => [⟨.accept, a⟩, ⟨.content_type, b⟩]

theorem pop_complex_combos (args : Args) :
    (_pop_complex_predicates args).1 =
      pcCombos (to_list (dictGet args "accept"))
        (to_list (dictGet args "content_type")) := by
  have hct : dictGet (dictErase args "accept") "content_type"
      = dictGet args "content_type" :=
    dictGet_dictErase_ne args "accept" "content_type" (by decide)
  have hmain : (_pop_complex_predicates args).1
      = (listProd
          ([(to_list (dictGet args "accept")).map
              fun v => (⟨PredKind.accept, v⟩ : PredDef),
            (to_list (dictGet args "content_type")).map
              fun v => (⟨PredKind.content_type, v⟩ : PredDef)].filter
            fun l => !l.isEmpty)).filter fun t => !t.isEmpty := by
    unfold _pop_complex_predicates _pop_predicate_definition
    simp only [PredKind.key, hct]
  rw [hmain]
  cases hA : to_list (dictGet args "accept") with
  | nil =>
    cases hB : to_list (dictGet args "content_type") with
    | nil => rfl
    | cons b bs =>
      have hfil : ([(([] : List PredValue)).map
            fun v => (⟨PredKind.accept, v⟩ : PredDef),
          ((b :: bs).map fun v => (⟨PredKind.content_type, v⟩ : PredDef))].filter
          fun l => !l.isEmpty)
          = [(b :: bs).map fun v => (⟨PredKind.content_type, v⟩ : PredDef)] := rfl
      rw [hfil, prod_one_filter]
      simp [pcCombos]
  | cons a as =>
    cases hB : to_list (dictGet args "content_type") with
    | nil =>
      have hfil : ([((a :: as)).map fun v => (⟨PredKind.accept, v⟩ : PredDef),
          (([] : List PredValue)).map
            fun v => (⟨PredKind.content_type, v⟩ : PredDef)].filter
          fun l => !l.isEmpty)
          = [(a :: as).map fun v => (⟨PredKind.accept, v⟩ : PredDef)] := rfl
      rw [hfil, prod_one_filter]
      simp [pcCombos]
    | cons b bs =>
      have hfil : ([((a :: as)).map fun v => (⟨PredKind.accept, v⟩ : PredDef),
          ((b :: bs)).map fun v => (⟨PredKind.content_type, v⟩ : PredDef)].filter
          fun l => !l.isEmpty)
          = [(a :: as).map fun v => (⟨PredKind.accept, v⟩ : PredDef),
             (b :: bs).map fun v => (⟨PredKind.content_type, v⟩ : PredDef)] := rfl
      rw [hfil, prod_two_filter]
      simp [pcCombos]

theorem pcCombos_length (A B : List PredValue) :
    (pcCombos A B).length =
      if A.length = 0 ∧ B.length = 0 then 0
      else max A.length 1 * max B.length 1 := by
  cases A with
  | nil =>
    cases B with
    | nil => rfl
    | cons b bs =>
      have h1 : max (bs.length + 1) 1 = bs.length + 1 :=
        Nat.max_eq_left (Nat.le_add_left 1 bs.length)
      simp [pcCombos, h1]
  | cons a as =>
    cases B with
    | nil =>
      have h1 : max (as.length + 1) 1 = as.length + 1 :=
        Nat.max_eq_left (Nat.le_add_left 1 as.length)
      simp [pcCombos, h1]
    | cons b bs =>
      have h1 : max (as.length + 1) 1 = as.length + 1 :=
        Nat.max_eq_left (Nat.le_add_left 1 as.length)
      have h2 : max (bs.length + 1) 1 = bs.length + 1 :=
        Nat.max_eq_left (Nat.le_add_left 1 bs.length)
      have h3 : ∀ A' : List PredValue,
          (A'.flatMap fun x => (b :: bs).map fun y =>
            ([⟨PredKind.accept, x⟩, ⟨PredKind.content_type, y⟩] :
              List PredDef)).length
          = A'.length * (bs.length + 1) := by
        intro A'
        induction A' with
        | nil => simp
        | cons x xs ih =>
          simp only [List.flatMap_cons, List.length_append, List.length_map,
            List.length_cons, ih]
          ring
      have hc : ¬((a :: as : List PredValue).length = 0
          ∧ (b :: bs : List PredValue).length = 0) := by simp
      unfold pcCombos
      rw [if_neg (List.cons_ne_nil a as), if_neg (List.cons_ne_nil b bs),
        if_neg hc, h3, List.length_cons, List.length_cons, h1, h2]

theorem pcCombos_eq_nil_iff (A B : List PredValue) :
    pcCombos A B = [] ↔ A = [] ∧ B = [] := by
  cases A with
  | nil =>
    cases B with
    | nil => simp [pcCombos]
    | cons b bs => simp [pcCombos]
  | cons a as =>
    cases B with
    | nil => simp [pcCombos]
    | cons b bs => simp [pcCombos, List.flatMap_cons]

/-
Registration fold lemmas.
-/

theorem registerStep_fold_length (L : List (List PredDef))
    (s : Store × Args × List Args) :
    ((L.foldl registerStep s).2.2).length = s.2.2.length + L.length := by
  induction L generalizing s with
  | nil => rfl
  | cons x xs ih =>
    rw [List.foldl_cons, ih]
    show (s.2.2 ++ [(_mungle_view_args s.1 s.2.1 x).2]).length + xs.length
      = s.2.2.length + (xs.length + 1)
    simp only [List.length_append, List.length_cons, List.length_nil]
    omega

theorem getLastD_concat_args (l : List Args) (a : Args) :
    ∀ d, (l ++ [a]).getLastD d = a := by
  induction l with
  | nil => intro d; rfl
  | cons x xs ih =>
    intro d
    rw [List.cons_append, List.getLastD_cons]
    exact ih x

theorem register_fold_synthetic_regs (st : Store) (args0 : Args)
    (L : List (List PredDef)) :
    ((L ++ empty_contenttype).foldl registerStep (st, args0, [])).2.2
      = (L.foldl registerStep (st, args0, [])).2.2
        ++ [dictSet (L.foldl registerStep (st, args0, [])).2.1
              "content_type" (.v (.str ""))] := by
  rw [List.foldl_append]
  rfl

theorem getD_append_length {α : Type} (l : List α) (x d : α) :
    (l ++ [x]).getD l.length d = x := by
  induction l with
  | nil => rfl
  | cons y ys ih => simp [List.cons_append, ih]

theorem set_append_length {α : Type} (l : List α) (x y : α) :
    (l ++ [x]).set l.length y = l ++ [y] := by
  induction l with
  | nil => rfl
  | cons z zs ih => simp [List.cons_append, ih]

theorem registerDefinitionViews_regs_of_empty (st : Store) (args : Args)
    (h : (_pop_complex_predicates args).1 = []) :
    (registerDefinitionViews st args).2
      = [(_pop_complex_predicates args).2] := by
  unfold registerDefinitionViews
  simp [h]

theorem registerDefinitionViews_regs_of_ne (st : Store) (args : Args)
    (h : (_pop_complex_predicates args).1 ≠ []) :
    (registerDefinitionViews st args).2
      = (((_pop_complex_predicates args).1 ++ empty_contenttype).foldl
          registerStep (st, (_pop_complex_predicates args).2, [])).2.2 := by
  have hf : (_pop_complex_predicates args).1.isEmpty = false := by
    cases hcc : (_pop_complex_predicates args).1 with
    | nil => exact absurd hcc h
    | cons x xs => rfl
  unfold registerDefinitionViews
  simp [hf]

/-- C3: the cartesian expansion of _pop_complex_predicates yields the
empty sequence when both the declared accept list and the declared
content_type list are empty; one combination per value of the single
non-empty kind when exactly one of the two lists is non-empty; and the
cartesian pairing of one accept record with one content_type record, of
size accept-count times content_type-count, when both are non-empty. -/
theorem pop_complex_predicates_cases (args : Args) :
    ((to_list (dictGet args "accept") = [] →
        to_list (dictGet args "content_type") = [] →
        (_pop_complex_predicates args).1 = []) ∧
     (to_list (dictGet args "accept") = [] →
        (_pop_complex_predicates args).1
          = (to_list (dictGet args "content_type")).map
              fun v => [⟨.content_type, v⟩]) ∧
     (to_list (dictGet args "content_type") = [] →
        (_pop_complex_predicates args).1
          = (to_list (dictGet args "accept")).map
              fun v => [⟨.accept, v⟩]) ∧
     (to_list (dictGet args "accept") ≠ [] →
        to_list (dictGet args "content_type") ≠ [] →
        (_pop_complex_predicates args).1
          = (to_list (dictGet args "accept")).flatMap fun a =>
              (to_list (dictGet args "content_type")).map fun b =>
                [⟨.accept, a⟩, ⟨.content_type, b⟩]) ∧
     (_pop_complex_predicates args).1.length
        = (if (to_list (dictGet args "accept")).length = 0
              ∧ (to_list (dictGet args "content_type")).length = 0 then 0
           else max (to_list (dictGet args "accept")).length 1
              * max (to_list (dictGet args "content_type")).length 1)) := by
  refine ⟨fun hA hB => ?_, fun hA => ?_, fun hB => ?_, fun hA hB => ?_, ?_⟩
  · rw [pop_complex_combos, hA, hB]
    rfl
  · rw [pop_complex_combos, hA]
    simp [pcCombos]
  · rw [pop_complex_combos, hB]
    by_cases hA : to_list (dictGet args "accept") = []
    · simp [pcCombos, hA]
    · simp [pcCombos, hA]
  · rw [pop_complex_combos]
    simp [pcCombos, hA, hB]
  · rw [pop_complex_combos]
    exact pcCombos_length _ _

def c3args : Args :=
  [("accept", .vlist [.str "application/json", .str "text/xml"]),
   ("content_type", .v (.str "text/plain"))]

theorem pop_complex_predicates_cases_witness :
    to_list (dictGet c3args "accept") ≠ [] ∧
    to_list (dictGet c3args "content_type") ≠ [] ∧
    (_pop_complex_predicates c3args).1
      = [[⟨.accept, .str "application/json"⟩,
          ⟨.content_type, .str "text/plain"⟩],
         [⟨.accept, .str "text/xml"⟩,
          ⟨.content_type, .str "text/plain"⟩]] :=
  ⟨by decide, by decide,
   ((pop_complex_predicates_cases c3args).2.2.2.1 (by decide)
     (by decide)).trans (by decide)⟩

def c1cexArgs : Args := [("accept", .v (.str "application/json"))]

/-- C1 counterexample: a definition with one declared accept value and no
content_type values (M = 1, C = 0). The claim counts exactly
max(M,1) * max(C,1) = 1 concrete view registrations, but the loop issues
2 add_view calls: the one combination plus the synthetic
empty-content-type registration. -/
theorem register_definition_view_count_claim_false :
    (to_list (dictGet c1cexArgs "accept")).length = 1 ∧
    (to_list (dictGet c1cexArgs "content_type")).length = 0 ∧
    (registerDefinitionViews ⟨[], []⟩ c1cexArgs).2.length = 2 ∧
    (registerDefinitionViews ⟨[], []⟩ c1cexArgs).2.length
      ≠ max 1 1 * max 0 1 := by
  refine ⟨by decide, by decide, by decide, by decide⟩

/-- C1 (amended): for one definition with M declared accept values and C
declared content_type values the registration loop issues
max(M,1) * max(C,1) combination-derived add_view calls plus one
additional synthetic empty-content-type call whenever M + C > 0, so
max(M,1) * max(C,1) + 1 calls in total, and exactly one unmodified call
when M = C = 0; the synthetic last call carries the empty string as its
content_type predicate, so a request with an empty or missing
content-type header still has a registration to match. -/
theorem register_definition_view_count (st : Store) (args : Args)
    (M C : Nat)
    (hM : (to_list (dictGet args "accept")).length = M)
    (hC : (to_list (dictGet args "content_type")).length = C) :
    ((registerDefinitionViews st args).2.length
        = if M = 0 ∧ C = 0 then 1 else max M 1 * max C 1 + 1) ∧
    (¬(M = 0 ∧ C = 0) →
      dictGet ((registerDefinitionViews st args).2.getLastD [])
          "content_type" = some (.v (.str ""))) := by
  have hcombos : (_pop_complex_predicates args).1
      = pcCombos (to_list (dictGet args "accept"))
          (to_list (dictGet args "content_type")) := pop_complex_combos args
  by_cases h0 : M = 0 ∧ C = 0
  · have hA : to_list (dictGet args "accept") = [] :=
      List.length_eq_zero.mp (hM.trans h0.1)
    have hB : to_list (dictGet args "content_type") = [] :=
      List.length_eq_zero.mp (hC.trans h0.2)
    have hnil : (_pop_complex_predicates args).1 = [] := by
      rw [hcombos, hA, hB]
      rfl
    constructor
    · rw [registerDefinitionViews_regs_of_empty st args hnil, if_pos h0]
      rfl
    · intro hcon
      exact absurd h0 hcon
  · have hne : (_pop_complex_predicates args).1 ≠ [] := by
      rw [hcombos]
      intro hnil
      rcases (pcCombos_eq_nil_iff _ _).mp hnil with ⟨hA, hB⟩
      exact h0 ⟨by rw [← hM, hA]; rfl, by rw [← hC, hB]; rfl⟩
    constructor
    · rw [registerDefinitionViews_regs_of_ne st args hne,
        registerStep_fold_length, List.length_append, hcombos,
        pcCombos_length, hM, hC, if_neg ?hc, if_neg h0]
      case hc =>
        intro hcc
        exact h0 hcc
      simp [empty_contenttype]
    · intro _
      rw [registerDefinitionViews_regs_of_ne st args hne,
        register_fold_synthetic_regs, getLastD_concat_args]
      exact dictGet_dictSet_self _ _ _

def c1args : Args :=
  [("accept", .vlist [.str "application/json", .str "text/xml"]),
   ("content_type", .v (.str "application/json"))]

theorem register_definition_view_count_witness :
    ((registerDefinitionViews ⟨[], []⟩ c1args).2.length
        = if 2 = 0 ∧ 1 = 0 then 1 else max 2 1 * max 1 1 + 1) ∧
    (¬(2 = 0 ∧ 1 = 0) →
      dictGet ((registerDefinitionViews ⟨[], []⟩ c1args).2.getLastD [])
          "content_type" = some (.v (.str ""))) :=
  register_definition_view_count ⟨[], []⟩ c1args 2 1 (by decide) (by decide)

/-- C4: whenever the cartesian expansion yields at least one combination,
exactly one additional synthetic registration is appended after the
combination-derived registrations (the loop iterates over the
combinations plus the empty_contenttype singleton), and the appended last
registration carries the empty string as its content_type predicate, so a
request with a missing or empty content-type header still matches one
registered view. -/
theorem register_appends_empty_contenttype_combination (st : Store)
    (args : Args) (h : (_pop_complex_predicates args).1 ≠ []) :
    (registerDefinitionViews st args).2.length
        = (_pop_complex_predicates args).1.length + 1 ∧
    dictGet ((registerDefinitionViews st args).2.getLastD [])
        "content_type" = some (.v (.str "")) := by
  constructor
  · rw [registerDefinitionViews_regs_of_ne st args h,
      registerStep_fold_length, List.length_append]
    simp [empty_contenttype]
  · rw [registerDefinitionViews_regs_of_ne st args h,
      register_fold_synthetic_regs, getLastD_concat_args]
    exact dictGet_dictSet_self _ _ _

def c4args : Args :=
  [("content_type", .vlist [.str "application/json", .str "text/plain"])]

theorem register_appends_empty_contenttype_combination_witness :
    (registerDefinitionViews ⟨[], []⟩ c4args).2.length
        = (_pop_complex_predicates c4args).1.length + 1 ∧
    dictGet ((registerDefinitionViews ⟨[], []⟩ c4args).2.getLastD [])
        "content_type" = some (.v (.str "")) :=
  register_appends_empty_contenttype_combination ⟨[], []⟩ c4args (by decide)

/-- C8: the predicate set builder pops the kind key (the key is gone from
the returned mapping while every other key keeps its binding and the
remaining entries keep their order), coerces a scalar declaration into a
single record, maps a declared sequence to one record per value in
declaration order, and yields no records for a missing key. -/
theorem pop_predicate_definition_contract (args : Args) (kind : PredKind) :
    ((dictGet args kind.key = none →
        (_pop_predicate_definition args kind).1 = []) ∧
     (∀ x, dictGet args kind.key = some (.v x) →
        (_pop_predicate_definition args kind).1 = [⟨kind, x⟩]) ∧
     (∀ xs, dictGet args kind.key = some (.vlist xs) →
        (_pop_predicate_definition args kind).1
          = xs.map fun v => ⟨kind, v⟩) ∧
     dictGet (_pop_predicate_definition args kind).2 kind.key = none ∧
     (∀ k, k ≠ kind.key →
        dictGet (_pop_predicate_definition args kind).2 k
          = dictGet args k) ∧
     ((_pop_predicate_definition args kind).2.map Prod.fst
        = (args.map Prod.fst).filter fun s => s ≠ kind.key)) := by
  refine ⟨fun h => ?_, fun x h => ?_, fun xs h => ?_, ?_, fun k hk => ?_, ?_⟩
  · simp [_pop_predicate_definition, h, to_list]
  · simp [_pop_predicate_definition, h, to_list]
  · simp [_pop_predicate_definition, h, to_list]
  · exact dictGet_dictErase_self args kind.key
  · exact dictGet_dictErase_ne args kind.key k hk
  · exact keys_dictErase args kind.key

def c8args : Args :=
  [("accept", .v (.str "application/json")), ("schema", .other 5)]

theorem pop_predicate_definition_contract_witness :
    (_pop_predicate_definition c8args .accept).1
        = [⟨.accept, .str "application/json"⟩] ∧
    dictGet (_pop_predicate_definition c8args .accept).2 "accept" = none ∧
    dictGet (_pop_predicate_definition c8args .accept).2 "schema"
        = dictGet c8args "schema" :=
  ⟨(pop_predicate_definition_contract c8args .accept).2.1
      (.str "application/json") (by decide),
   (pop_predicate_definition_contract c8args .accept).2.2.2.1,
   (pop_predicate_definition_contract c8args .accept).2.2.2.2.1 "schema"
      (by decide)⟩

/-- The arguments of one definition for the aliasing scenario: a callable
accept value and two scalar content_type values. -/
def c10args (f : Nat) : Args :=
  [("accept", .v (.call f)),
   ("content_type", .vlist [.str "text/a", .str "text/b"])]

/-- Shape of the registered dicts in the aliasing scenario: the shared
custom_predicates reference plus the per-combination content_type
scalar. -/
def c10reg (R : Nat) (s : String) : Args :=
  [("custom_predicates", .predsRef R), ("content_type", .v (.str s))]

/-- C10: with a callable accept value and two scalar content_type values,
all three registrations of the definition (two combinations plus the
synthetic empty-content-type one) carry one and the same
custom_predicates reference, allocated while preparing the first
combination, and the final store holds that single shared list with the
checker appended once per combination; so the checker appended while
preparing the second combination is observed in the arguments of every
registration, the synthetic one and the previously registered first one
included. -/
theorem expanded_registrations_share_custom_predicates (st : Store)
    (f : Nat) :
    (registerDefinitionViews st (c10args f)).2
      = [c10reg st.predLists.length "text/a",
         c10reg st.predLists.length "text/b",
         c10reg st.predLists.length ""] ∧
    (registerDefinitionViews st (c10args f)).1.predLists
      = st.predLists ++ [[⟨.accept, f⟩, ⟨.accept, f⟩]] ∧
    observedPreds (registerDefinitionViews st (c10args f)).1
        ((registerDefinitionViews st (c10args f)).2.getD 0 [])
      = [⟨.accept, f⟩, ⟨.accept, f⟩] ∧
    observedPreds (registerDefinitionViews st (c10args f)).1
        ((registerDefinitionViews st (c10args f)).2.getD 1 [])
      = [⟨.accept, f⟩, ⟨.accept, f⟩] ∧
    observedPreds (registerDefinitionViews st (c10args f)).1
        ((registerDefinitionViews st (c10args f)).2.getD 2 [])
      = [⟨.accept, f⟩, ⟨.accept, f⟩] := by
  have h1 : registerStep (st, ([] : Args), ([] : List Args))
      [⟨.accept, .call f⟩, ⟨.content_type, .str "text/a"⟩]
      = (⟨st.predLists ++ [[⟨.accept, f⟩]], st.valLists⟩,
         c10reg st.predLists.length "text/a",
         [c10reg st.predLists.length "text/a"]) := rfl
  have h2raw : registerStep
      (⟨st.predLists ++ [[⟨.accept, f⟩]], st.valLists⟩,
       c10reg st.predLists.length "text/a",
       [c10reg st.predLists.length "text/a"])
      [⟨.accept, .call f⟩, ⟨.content_type, .str "text/b"⟩]
      = (⟨(st.predLists ++ [[(⟨.accept, f⟩ : Checker)]]).set
            st.predLists.length
            ((st.predLists ++ [[(⟨.accept, f⟩ : Checker)]]).getD
              st.predLists.length [] ++ [(⟨.accept, f⟩ : Checker)]),
          st.valLists⟩,
         c10reg st.predLists.length "text/b",
         [c10reg st.predLists.length "text/a",
          c10reg st.predLists.length "text/b"]) := rfl
  have h2 : registerStep
      (⟨st.predLists ++ [[⟨.accept, f⟩]], st.valLists⟩,
       c10reg st.predLists.length "text/a",
       [c10reg st.predLists.length "text/a"])
      [⟨.accept, .call f⟩, ⟨.content_type, .str "text/b"⟩]
      = (⟨st.predLists ++ [[⟨.accept, f⟩, ⟨.accept, f⟩]], st.valLists⟩,
         c10reg st.predLists.length "text/b",
         [c10reg st.predLists.length "text/a",
          c10reg st.predLists.length "text/b"]) := by
    rw [h2raw, getD_append_length, set_append_length]
    rfl
  have h3 : registerStep
      (⟨st.predLists ++ [[⟨.accept, f⟩, ⟨.accept, f⟩]], st.valLists⟩,
       c10reg st.predLists.length "text/b",
       [c10reg st.predLists.length "text/a",
        c10reg st.predLists.length "text/b"])
      [⟨.content_type, .str ""⟩]
      = (⟨st.predLists ++ [[⟨.accept, f⟩, ⟨.accept, f⟩]], st.valLists⟩,
         c10reg st.predLists.length "",
         [c10reg st.predLists.length "text/a",
          c10reg st.predLists.length "text/b",
          c10reg st.predLists.length ""]) := rfl
  have hfold : ([[(⟨.accept, .call f⟩ : PredDef),
        ⟨.content_type, .str "text/a"⟩],
       [⟨.accept, .call f⟩, ⟨.content_type, .str "text/b"⟩]]
        ++ empty_contenttype).foldl registerStep
        (st, ([] : Args), ([] : List Args))
      = (⟨st.predLists ++ [[⟨.accept, f⟩, ⟨.accept, f⟩]], st.valLists⟩,
         c10reg st.predLists.length "",
         [c10reg st.predLists.length "text/a",
          c10reg st.predLists.length "text/b",
          c10reg st.predLists.length ""]) := by
    rw [show ([[(⟨.accept, .call f⟩ : PredDef),
        ⟨.content_type, .str "text/a"⟩],
       [⟨.accept, .call f⟩, ⟨.content_type, .str "text/b"⟩]]
        ++ empty_contenttype)
      = [[(⟨.accept, .call f⟩ : PredDef), ⟨.content_type, .str "text/a"⟩],
         [⟨.accept, .call f⟩, ⟨.content_type, .str "text/b"⟩],
         [⟨.content_type, .str ""⟩]] from rfl]
    rw [List.foldl_cons, h1, List.foldl_cons, h2, List.foldl_cons, h3,
      List.foldl_nil]
  have hkey : registerDefinitionViews st (c10args f)
      = (⟨st.predLists ++ [[⟨.accept, f⟩, ⟨.accept, f⟩]], st.valLists⟩,
         [c10reg st.predLists.length "text/a",
          c10reg st.predLists.length "text/b",
          c10reg st.predLists.length ""]) := by
    show ((([[(⟨.accept, .call f⟩ : PredDef),
        ⟨.content_type, .str "text/a"⟩],
       [⟨.accept, .call f⟩, ⟨.content_type, .str "text/b"⟩]]
        ++ empty_contenttype).foldl registerStep
        (st, ([] : Args), ([] : List Args))).1,
      (([[(⟨.accept, .call f⟩ : PredDef),
        ⟨.content_type, .str "text/a"⟩],
       [⟨.accept, .call f⟩, ⟨.content_type, .str "text/b"⟩]]
        ++ empty_contenttype).foldl registerStep
        (st, ([] : Args), ([] : List Args))).2.2) = _
    rw [hfold]
  rw [hkey]
  refine ⟨rfl, rfl, ?_, ?_, ?_⟩
  all_goals
    show (st.predLists ++ [[(⟨.accept, f⟩ : Checker), ⟨.accept, f⟩]]).getD
        st.predLists.length [] = [(⟨.accept, f⟩ : Checker), ⟨.accept, f⟩]
    exact getD_append_length _ _ _

/-- C9: in the filter step of apply_filters each declared filter is first
called with (response, request); when and only when that call raises
TypeError the filter is called once more with just the response, and that
second outcome, result or exception alike, is what propagates; a
non-TypeError exception from the first call propagates directly. -/
theorem filter_type_error_retry (f : PyFilter) (response : Nat)
    (request : Request) :
    ((∀ r, f.callTwo response request = .ok r →
        runFilter response request f = .ok r) ∧
     (f.callTwo response request = .error .typeError →
        runFilter response request f = f.callOne response) ∧
     (∀ n, f.callTwo response request = .error (.otherError n) →
        runFilter response request f = .error (.otherError n))) := by
  refine ⟨fun r h => ?_, fun h => ?_, fun n h => ?_⟩
  · rw [runFilter, h]
  · rw [runFilter, h]
  · rw [runFilter, h]

def c9filter : PyFilter :=
  ⟨fun _ _ => .error .typeError, fun r => .ok (r + 1)⟩

def c9request : Request :=
  ⟨"GET", fun _ => false, "", [], [], ⟨[], 0⟩⟩

theorem filter_type_error_retry_witness :
    runFilter 5 c9request c9filter = c9filter.callOne 5 :=
  (filter_type_error_retry c9filter 5 c9request).2.1 rfl

/-- C5: a request whose method is not among the defined methods of the
service makes the fallback view raise the method-not-allowed response
whose allow header is exactly the defined-methods list of the service,
whatever the other request fields hold. -/
theorem fallback_method_not_allowed_405 (s : Service) (req : Request)
    (h : req.method ∉ s.defined_methods) :
    _fallback_view s req = .methodNotAllowed s.defined_methods := by
  rw [_fallback_view, if_neg h]

def c5service : Service :=
  ⟨"svc", "/svc", none, none, [], false, 7,
   [⟨"GET", 1, [("accept", .v (.str "application/json"))]⟩,
    ⟨"POST", 2, []⟩]⟩

def c5request : Request :=
  ⟨"DELETE", fun _ => true, "application/json", [], [], ⟨[], 0⟩⟩

theorem fallback_method_not_allowed_405_witness :
    _fallback_view c5service c5request
      = .methodNotAllowed c5service.defined_methods :=
  fallback_method_not_allowed_405 c5service c5request (by decide)

/-
Fallback view lemmas.
-/

theorem mem_pySet (x : String) (l : List String) :
    x ∈ pySet l ↔ x ∈ l :=
  List.mem_dedup

theorem mem_defined_methods_aux (l : List Definition) (acc : List String)
    (m : String) :
    m ∈ l.foldl
        (fun acc d => if d.method ∈ acc then acc else acc ++ [d.method]) acc
      ↔ m ∈ acc ∨ ∃ d ∈ l, d.method = m := by
  induction l generalizing acc with
  | nil => simp
  | cons d rest ih =>
    rw [List.foldl_cons]
    by_cases h : d.method ∈ acc
    · rw [if_pos h, ih]
      constructor
      · rintro (hm | ⟨d', hd', he⟩)
        · exact Or.inl hm
        · exact Or.inr ⟨d', by simp [hd'], he⟩
      · rintro (hm | ⟨d', hd', he⟩)
        · exact Or.inl hm
        · rcases List.mem_cons.mp hd' with h1 | h1
          · subst h1
            exact Or.inl (he ▸ h)
          · exact Or.inr ⟨d', h1, he⟩
    · rw [if_neg h, ih]
      constructor
      · rintro (hm | ⟨d', hd', he⟩)
        · rcases List.mem_append.mp hm with h1 | h1
          · exact Or.inl h1
          · exact Or.inr ⟨d, by simp, (List.mem_singleton.mp h1).symm⟩
        · exact Or.inr ⟨d', by simp [hd'], he⟩
      · rintro (hm | ⟨d', hd', he⟩)
        · exact Or.inl (List.mem_append.mpr (Or.inl hm))
        · rcases List.mem_cons.mp hd' with h1 | h1
          · subst h1
            exact Or.inl (List.mem_append.mpr (Or.inr (by simp [he])))
          · exact Or.inr ⟨d', h1, he⟩

theorem mem_defined_methods (s : Service) (m : String) :
    m ∈ s.defined_methods ↔ ∃ d ∈ s.definitions, d.method = m := by
  unfold Service.defined_methods
  rw [mem_defined_methods_aux]
  simp

theorem fallback_loop_406 (s : Service) (req : Request)
    (hacc : ∀ x ∈ s.get_acceptable req.method ++ req.info_acceptable,
      req.acceptsOffer x = false) :
    ∀ (defs : List Definition) (supported : List String),
    (∃ d ∈ defs, d.method = req.method) →
    (∀ d ∈ defs, d.method = req.method → hasKey d.args "accept" = true) →
    fallbackLoop s req req.errors defs [] supported
      = .raisedError s.error_handler
          ⟨req.errors.entries
            ++ [⟨"header", "Accept",
                 pySet ([] ++ s.get_acceptable req.method
                   ++ req.info_acceptable)⟩], 406⟩ := by
  intro defs
  induction defs with
  | nil =>
    intro supported hex _
    rcases hex with ⟨d, hd, _⟩
    simp at hd
  | cons d rest ih =>
    intro supported hex hall
    by_cases hdm : d.method = req.method
    · have hk := hall d (by simp) hdm
      have hbeq : (d.method == req.method) = true := by
        rw [hdm]
        simp
      have hany : (pySet ([] ++ s.get_acceptable req.method
          ++ req.info_acceptable)).any req.acceptsOffer = false := by
        rw [List.any_eq_false]
        intro x hx
        have hx' : x ∈ s.get_acceptable req.method ++ req.info_acceptable := by
          have := (mem_pySet x _).mp hx
          simpa using this
        simp [hacc x hx']
      show (match checkDefinition s req d [] supported req.errors with
        | .error res => res
        | .ok st => fallbackLoop s req req.errors rest st.1 st.2) = _
      have hstep : checkDefinition s req d [] supported req.errors
          = .error (.raisedError s.error_handler
              ⟨req.errors.entries
                ++ [⟨"header", "Accept",
                     pySet ([] ++ s.get_acceptable req.method
                       ++ req.info_acceptable)⟩], 406⟩) := by
        rw [checkDefinition, if_pos hbeq, if_pos hk, if_neg (by rw [hany]; simp)]
      rw [hstep]
    · have hbeq : (d.method == req.method) = false := by
        simp [hdm]
      show (match checkDefinition s req d [] supported req.errors with
        | .error res => res
        | .ok st => fallbackLoop s req req.errors rest st.1 st.2) = _
      have hstep : checkDefinition s req d [] supported req.errors
          = .ok ([], supported) := by
        rw [checkDefinition, if_neg (by rw [hbeq]; simp)]
      rw [hstep]
      apply ih
      · rcases hex with ⟨d', hd', he⟩
        rcases List.mem_cons.mp hd' with h1 | h1
        · subst h1
          exact absurd he hdm
        · exact ⟨d', h1, he⟩
      · intro d' hd' he
        exact hall d' (by simp [hd']) he

/-- C2: when the request method is among the defined methods, the
matching definitions declare an accept constraint, and the Accept header
accepts none of the union of the acceptable accept values of the method
(callables filtered to their concrete offers) and the request-time
override list, the fallback view appends one header-location error entry
named Accept carrying exactly that acceptable set (membership-wise, the
source formats it through an unordered set), sets the collector status to
406, and raises the response produced by the configured error handler on
the request. -/
theorem fallback_accept_not_acceptable_406 (s : Service) (req : Request)
    (hm : req.method ∈ s.defined_methods)
    (hall : ∀ d ∈ s.definitions, d.method = req.method →
      hasKey d.args "accept" = true)
    (hacc : ∀ x ∈ s.get_acceptable req.method ++ req.info_acceptable,
      req.acceptsOffer x = false) :
    (_fallback_view s req
      = .raisedError s.error_handler
          ⟨req.errors.entries
            ++ [⟨"header", "Accept",
                 pySet ([] ++ s.get_acceptable req.method
                   ++ req.info_acceptable)⟩], 406⟩) ∧
    (∀ x, x ∈ pySet ([] ++ s.get_acceptable req.method
        ++ req.info_acceptable)
      ↔ x ∈ s.get_acceptable req.method ++ req.info_acceptable) := by
  constructor
  · rw [_fallback_view, if_pos hm]
    exact fallback_loop_406 s req hacc s.definitions []
      ((mem_defined_methods s req.method).mp hm) hall
  · intro x
    rw [mem_pySet]
    simp

def c2service : Service :=
  ⟨"svc", "/svc", none, none, [], false, 7,
   [⟨"GET", 1, [("accept", .vlist [.str "application/json"])]⟩]⟩

def c2request : Request :=
  ⟨"GET", fun _ => false, "text/plain", [], [], ⟨[], 0⟩⟩

theorem fallback_accept_not_acceptable_406_witness :
    (_fallback_view c2service c2request
      = .raisedError c2service.error_handler
          ⟨c2request.errors.entries
            ++ [⟨"header", "Accept",
                 pySet ([] ++ c2service.get_acceptable c2request.method
                   ++ c2request.info_acceptable)⟩], 406⟩) ∧
    (∀ x, x ∈ pySet ([] ++ c2service.get_acceptable c2request.method
        ++ c2request.info_acceptable)
      ↔ x ∈ c2service.get_acceptable c2request.method
          ++ c2request.info_acceptable) :=
  fallback_accept_not_acceptable_406 c2service c2request (by decide)
    (by decide) (by decide)

theorem fallback_loop_415 (s : Service) (req : Request)
    (haccOk : (∃ d ∈ s.definitions, d.method = req.method
        ∧ hasKey d.args "accept" = true) →
      (s.get_acceptable req.method ++ req.info_acceptable).any
        req.acceptsOffer = true)
    (hct : req.content_type
      ∉ s.get_contenttypes req.method ++ req.info_supported_contenttypes) :
    ∀ (defs : List Definition) (acceptable : List String),
    (∀ d ∈ defs, d ∈ s.definitions) →
    (∃ d ∈ defs, d.method = req.method
      ∧ hasKey d.args "content_type" = true) →
    fallbackLoop s req req.errors defs acceptable []
      = .raisedError s.error_handler
          ⟨req.errors.entries
            ++ [⟨"header", "Content-Type",
                 pySet ([] ++ s.get_contenttypes req.method
                   ++ req.info_supported_contenttypes)⟩], 415⟩ := by
  intro defs
  induction defs with
  | nil =>
    intro acceptable _ hex
    rcases hex with ⟨d, hd, _⟩
    simp at hd
  | cons d rest ih =>
    intro acceptable hsub hex
    have hmemCT : req.content_type
        ∉ pySet ([] ++ s.get_contenttypes req.method
          ++ req.info_supported_contenttypes) := by
      rw [mem_pySet]
      simpa using hct
    by_cases hdm : d.method = req.method
    · have hbeq : (d.method == req.method) = true := by
        rw [hdm]
        simp
      by_cases hkC : hasKey d.args "content_type" = true
      · -- the first matching content_type definition raises the 415
        have hctstep : ∀ acceptable2,
            checkContentType s req d acceptable2 [] req.errors
              = .error (.raisedError s.error_handler
                  ⟨req.errors.entries
                    ++ [⟨"header", "Content-Type",
                         pySet ([] ++ s.get_contenttypes req.method
                           ++ req.info_supported_contenttypes)⟩], 415⟩) := by
          intro acceptable2
          rw [checkContentType, if_pos hkC, if_neg hmemCT]
        show (match checkDefinition s req d acceptable [] req.errors with
          | .error res => res
          | .ok st => fallbackLoop s req req.errors rest st.1 st.2) = _
        by_cases hkA : hasKey d.args "accept" = true
        · have hanyT : (pySet (acceptable ++ s.get_acceptable req.method
              ++ req.info_acceptable)).any req.acceptsOffer = true := by
            have hex' := haccOk ⟨d, hsub d (by simp), hdm, hkA⟩
            rcases List.any_eq_true.mp hex' with ⟨x, hx, hpx⟩
            refine List.any_eq_true.mpr ⟨x, ?_, hpx⟩
            rw [mem_pySet]
            rcases List.mem_append.mp hx with h1 | h1
            · exact List.mem_append.mpr (Or.inl
                (List.mem_append.mpr (Or.inr h1)))
            · exact List.mem_append.mpr (Or.inr h1)
          have hstep : checkDefinition s req d acceptable [] req.errors
              = checkContentType s req d
                  (pySet (acceptable ++ s.get_acceptable req.method
                    ++ req.info_acceptable)) [] req.errors := by
            rw [checkDefinition, if_pos hbeq, if_pos hkA, if_pos hanyT]
          rw [hstep, hctstep]
        · have hstep : checkDefinition s req d acceptable [] req.errors
              = checkContentType s req d acceptable [] req.errors := by
            rw [checkDefinition, if_pos hbeq,
              if_neg (by rw [Bool.of_not_eq_true hkA]; simp)]
          rw [hstep, hctstep]
      · -- matching definition without content_type: pass through
        show (match checkDefinition s req d acceptable [] req.errors with
          | .error res => res
          | .ok st => fallbackLoop s req req.errors rest st.1 st.2) = _
        have hctpass : ∀ acceptable2,
            checkContentType s req d acceptable2 [] req.errors
              = .ok (acceptable2, []) := by
          intro acceptable2
          rw [checkContentType,
            if_neg (by rw [Bool.of_not_eq_true hkC]; simp)]
        have hexr : ∃ d' ∈ rest, d'.method = req.method
            ∧ hasKey d'.args "content_type" = true := by
          rcases hex with ⟨d', hd', he, hk⟩
          rcases List.mem_cons.mp hd' with h1 | h1
          · subst h1
            exact absurd hk hkC
          · exact ⟨d', h1, he, hk⟩
        have hsubr : ∀ d' ∈ rest, d' ∈ s.definitions := fun d' hd' =>
          hsub d' (by simp [hd'])
        by_cases hkA : hasKey d.args "accept" = true
        · have hanyT : (pySet (acceptable ++ s.get_acceptable req.method
              ++ req.info_acceptable)).any req.acceptsOffer = true := by
            have hex' := haccOk ⟨d, hsub d (by simp), hdm, hkA⟩
            rcases List.any_eq_true.mp hex' with ⟨x, hx, hpx⟩
            refine List.any_eq_true.mpr ⟨x, ?_, hpx⟩
            rw [mem_pySet]
            rcases List.mem_append.mp hx with h1 | h1
            · exact List.mem_append.mpr (Or.inl
                (List.mem_append.mpr (Or.inr h1)))
            · exact List.mem_append.mpr (Or.inr h1)
          have hstep : checkDefinition s req d acceptable [] req.errors
              = .ok (pySet (acceptable ++ s.get_acceptable req.method
                  ++ req.info_acceptable), []) := by
            rw [checkDefinition, if_pos hbeq, if_pos hkA, if_pos hanyT,
              hctpass]
          rw [hstep]
          exact ih _ hsubr hexr
        · have hstep : checkDefinition s req d acceptable [] req.errors
              = .ok (acceptable, []) := by
            rw [checkDefinition, if_pos hbeq,
              if_neg (by rw [Bool.of_not_eq_true hkA]; simp), hctpass]
          rw [hstep]
          exact ih _ hsubr hexr
    · have hbeq : (d.method == req.method) = false := by
        simp [hdm]
      show (match checkDefinition s req d acceptable [] req.errors with
        | .error res => res
        | .ok st => fallbackLoop s req req.errors rest st.1 st.2) = _
      have hstep : checkDefinition s req d acceptable [] req.errors
          = .ok (acceptable, []) := by
        rw [checkDefinition, if_neg (by rw [hbeq]; simp)]
      rw [hstep]
      refine ih _ (fun d' hd' => hsub d' (by simp [hd'])) ?_
      rcases hex with ⟨d', hd', he, hk⟩
      rcases List.mem_cons.mp hd' with h1 | h1
      · subst h1
        exact absurd he hdm
      · exact ⟨d', h1, he, hk⟩

/-- C6: when the request method is among the defined methods, the Accept
header is acceptable whenever some matching definition declares an accept
constraint, some matching definition declares a content_type constraint,
and the actual request content type is outside the union of the supported
content-type values of the method (callables filtered) and the
request-time override list, the fallback view appends one header-location
error entry named Content-Type carrying exactly that supported set
(membership-wise), sets the collector status to 415, and raises the
response produced by the configured error handler on the request. -/
theorem fallback_unsupported_content_type_415 (s : Service) (req : Request)
    (hm : req.method ∈ s.defined_methods)
    (haccOk : (∃ d ∈ s.definitions, d.method = req.method
        ∧ hasKey d.args "accept" = true) →
      (s.get_acceptable req.method ++ req.info_acceptable).any
        req.acceptsOffer = true)
    (hctd : ∃ d ∈ s.definitions, d.method = req.method
      ∧ hasKey d.args "content_type" = true)
    (hct : req.content_type
      ∉ s.get_contenttypes req.method ++ req.info_supported_contenttypes) :
    (_fallback_view s req
      = .raisedError s.error_handler
          ⟨req.errors.entries
            ++ [⟨"header", "Content-Type",
                 pySet ([] ++ s.get_contenttypes req.method
                   ++ req.info_supported_contenttypes)⟩], 415⟩) ∧
    (∀ x, x ∈ pySet ([] ++ s.get_contenttypes req.method
        ++ req.info_supported_contenttypes)
      ↔ x ∈ s.get_contenttypes req.method
          ++ req.info_supported_contenttypes) := by
  constructor
  · rw [_fallback_view, if_pos hm]
    exact fallback_loop_415 s req haccOk hct s.definitions []
      (fun d hd => hd) hctd
  · intro x
    rw [mem_pySet]
    simp

def c6service : Service :=
  ⟨"svc", "/svc", none, none, [], false, 7,
   [⟨"POST", 1, [("content_type", .vlist [.str "application/json"])]⟩]⟩

def c6request : Request :=
  ⟨"POST", fun _ => true, "text/plain", [], [], ⟨[], 0⟩⟩

theorem fallback_unsupported_content_type_415_witness :
    (_fallback_view c6service c6request
      = .raisedError c6service.error_handler
          ⟨c6request.errors.entries
            ++ [⟨"header", "Content-Type",
                 pySet ([] ++ c6service.get_contenttypes c6request.method
                   ++ c6request.info_supported_contenttypes)⟩], 415⟩) ∧
    (∀ x, x ∈ pySet ([] ++ c6service.get_contenttypes c6request.method
        ++ c6request.info_supported_contenttypes)
      ↔ x ∈ c6service.get_contenttypes c6request.method
          ++ c6request.info_supported_contenttypes) :=
  fallback_unsupported_content_type_415 c6service c6request (by decide)
    (fun h => absurd h (by decide)) (by decide) (by decide)

/-
Heap frame machinery for the registration frame property.
-/

theorem getD_append_lt {α : Type} (l1 l2 : List α) (r : Nat) (d : α)
    (h : r < l1.length) : (l1 ++ l2).getD r d = l1.getD r d := by
  induction l1 generalizing r with
  | nil => simp at h
  | cons x xs ih =>
    cases r with
    | zero => rfl
    | succ n =>
      simp only [List.length_cons, Nat.succ_lt_succ_iff] at h
      simpa [List.cons_append] using ih n h

theorem getD_set_ne {α : Type} (l : List α) (r r' : Nat) (x d : α)
    (h : r' ≠ r) : (l.set r x).getD r' d = l.getD r' d := by
  induction l generalizing r r' with
  | nil => rfl
  | cons y ys ih =>
    cases r with
    | zero =>
      cases r' with
      | zero => exact absurd rfl h
      | succ n => rfl
    | succ m =>
      cases r' with
      | zero => rfl
      | succ n =>
        simpa [List.set] using ih m n fun he => h (by rw [he])

/-- st extends st0: the heap only grew and every list object already
present in st0 still holds its content. -/
def StoreExt (st0 st : Store) : Prop :=
  st0.predLists.length ≤ st.predLists.length ∧
  st0.valLists.length ≤ st.valLists.length ∧
  (∀ r, r < st0.predLists.length → st.getPred r = st0.getPred r) ∧
  (∀ r, r < st0.valLists.length → st.getVal r = st0.getVal r)

theorem storeExt_refl (st : Store) : StoreExt st st :=
  ⟨Nat.le_refl _, Nat.le_refl _, fun _ _ => rfl, fun _ _ => rfl⟩

theorem storeExt_allocPred (st0 st : Store) (l : List Checker)
    (h : StoreExt st0 st) :
    StoreExt st0 (st.allocPred l).2
      ∧ st0.predLists.length ≤ (st.allocPred l).1 := by
  refine ⟨⟨?_, h.2.1, fun r hr => ?_, h.2.2.2⟩, h.1⟩
  · show st0.predLists.length ≤ (st.predLists ++ [l]).length
    rw [List.length_append]
    exact Nat.le_trans h.1 (Nat.le_add_right _ _)
  · show (st.predLists ++ [l]).getD r [] = st0.getPred r
    rw [getD_append_lt _ _ _ _ (Nat.lt_of_lt_of_le hr h.1)]
    exact h.2.2.1 r hr

theorem storeExt_allocVal (st0 st : Store) (l : List Nat)
    (h : StoreExt st0 st) :
    StoreExt st0 (st.allocVal l).2
      ∧ st0.valLists.length ≤ (st.allocVal l).1 := by
  refine ⟨⟨h.1, ?_, h.2.2.1, fun r hr => ?_⟩, h.2.1⟩
  · show st0.valLists.length ≤ (st.valLists ++ [l]).length
    rw [List.length_append]
    exact Nat.le_trans h.2.1 (Nat.le_add_right _ _)
  · show (st.valLists ++ [l]).getD r [] = st0.getVal r
    rw [getD_append_lt _ _ _ _ (Nat.lt_of_lt_of_le hr h.2.1)]
    exact h.2.2.2 r hr

theorem storeExt_appendPred (st0 st : Store) (r : Nat) (c : Checker)
    (h : StoreExt st0 st) (hr : st0.predLists.length ≤ r) :
    StoreExt st0 (st.appendPred r c) := by
  refine ⟨?_, h.2.1, fun r' hr' => ?_, h.2.2.2⟩
  · show st0.predLists.length ≤ (st.predLists.set r _).length
    rw [List.length_set]
    exact h.1
  · show (st.predLists.set r _).getD r' [] = st0.getPred r'
    rw [getD_set_ne _ _ _ _ _ (Nat.ne_of_lt (Nat.lt_of_lt_of_le hr' hr))]
    exact h.2.2.1 r' hr'

theorem storeExt_insertVal (st0 st : Store) (r : Nat) (x : Nat)
    (h : StoreExt st0 st) (hr : st0.valLists.length ≤ r) :
    StoreExt st0 (st.insertVal r x) := by
  refine ⟨h.1, ?_, h.2.2.1, fun r' hr' => ?_⟩
  · show st0.valLists.length ≤ (st.valLists.set r _).length
    rw [List.length_set]
    exact h.2.1
  · show (st.valLists.set r _).getD r' [] = st0.getVal r'
    rw [getD_set_ne _ _ _ _ _ (Nat.ne_of_lt (Nat.lt_of_lt_of_le hr' hr))]
    exact h.2.2.2 r' hr'

/-- The custom_predicates reference of an argument dict, when present,
points at or above the given heap bound. -/
def PredsOk (n : Nat) (args : Args) : Prop :=
  ∀ r, dictGet args "custom_predicates" = some (.predsRef r) → n ≤ r

theorem predsOk_dictSet_ne (n : Nat) (args : Args) (k : String) (x : ArgVal)
    (hk : ("custom_predicates" : String) ≠ k) (h : PredsOk n args) :
    PredsOk n (dictSet args k x) := by
  intro r hr
  rw [dictGet_dictSet_ne args k "custom_predicates" x hk] at hr
  exact h r hr

theorem predsOk_dictErase (n : Nat) (args : Args) (k : String)
    (h : PredsOk n args) : PredsOk n (dictErase args k) := by
  intro r hr
  by_cases hk : ("custom_predicates" : String) = k
  · rw [← hk, dictGet_dictErase_self] at hr
    cases hr
  · rw [dictGet_dictErase_ne args k "custom_predicates" hk] at hr
    exact h r hr

theorem predsOk_stripKeys (n : Nat) (keys : List String) :
    ∀ args : Args, PredsOk n args → PredsOk n (stripKeys args keys) := by
  induction keys with
  | nil => intro args h; exact h
  | cons k rest ih =>
    intro args h
    exact ih (dictErase args k) (predsOk_dictErase n args k h)

theorem mungle_preserves (st0 st : Store) (args : Args) (e : PredDef)
    (hext : StoreExt st0 st) (hargs : PredsOk st0.predLists.length args) :
    StoreExt st0 (munglePredicate st args e).1
      ∧ PredsOk st0.predLists.length (munglePredicate st args e).2 := by
  obtain ⟨ek, ev⟩ := e
  cases ev with
  | str s =>
    refine ⟨hext, ?_⟩
    show PredsOk st0.predLists.length (dictSet args ek.key (.v (.str s)))
    refine predsOk_dictSet_ne _ _ _ _ ?_ hargs
    cases ek <;> decide
  | call id =>
    cases hc : dictGet args "custom_predicates" with
    | none =>
      have hme : munglePredicate st args ⟨ek, .call id⟩
          = ((st.allocPred [⟨ek, id⟩]).2,
             dictSet args "custom_predicates"
               (.predsRef (st.allocPred [⟨ek, id⟩]).1)) := by
        simp only [munglePredicate, hc]
      rw [hme]
      have ha := storeExt_allocPred st0 st [⟨ek, id⟩] hext
      refine ⟨ha.1, ?_⟩
      intro r hr
      rw [dictGet_dictSet_self] at hr
      cases hr
      exact ha.2
    | some av =>
      cases av with
      | predsRef r =>
        have hme : munglePredicate st args ⟨ek, .call id⟩
            = (st.appendPred r ⟨ek, id⟩,
               dictSet args "custom_predicates" (.predsRef r)) := by
          simp only [munglePredicate, hc]
        rw [hme]
        have hrge := hargs r hc
        refine ⟨storeExt_appendPred st0 st r ⟨ek, id⟩ hext hrge, ?_⟩
        intro r' hr'
        rw [dictGet_dictSet_self] at hr'
        cases hr'
        exact hrge
      | v x =>
        have hme : munglePredicate st args ⟨ek, .call id⟩
            = ((st.allocPred [⟨ek, id⟩]).2,
               dictSet args "custom_predicates"
                 (.predsRef (st.allocPred [⟨ek, id⟩]).1)) := by
          simp only [munglePredicate, hc]
        rw [hme]
        have ha := storeExt_allocPred st0 st [⟨ek, id⟩] hext
        refine ⟨ha.1, ?_⟩
        intro r hr
        rw [dictGet_dictSet_self] at hr
        cases hr
        exact ha.2
      | vlist xs =>
        have hme : munglePredicate st args ⟨ek, .call id⟩
            = ((st.allocPred [⟨ek, id⟩]).2,
               dictSet args "custom_predicates"
                 (.predsRef (st.allocPred [⟨ek, id⟩]).1)) := by
          simp only [munglePredicate, hc]
        rw [hme]
        have ha := storeExt_allocPred st0 st [⟨ek, id⟩] hext
        refine ⟨ha.1, ?_⟩
        intro r hr
        rw [dictGet_dictSet_self] at hr
        cases hr
        exact ha.2
      | valsRef rv =>
        have hme : munglePredicate st args ⟨ek, .call id⟩
            = ((st.allocPred [⟨ek, id⟩]).2,
               dictSet args "custom_predicates"
                 (.predsRef (st.allocPred [⟨ek, id⟩]).1)) := by
          simp only [munglePredicate, hc]
        rw [hme]
        have ha := storeExt_allocPred st0 st [⟨ek, id⟩] hext
        refine ⟨ha.1, ?_⟩
        intro r hr
        rw [dictGet_dictSet_self] at hr
        cases hr
        exact ha.2
      | boolV b =>
        have hme : munglePredicate st args ⟨ek, .call id⟩
            = ((st.allocPred [⟨ek, id⟩]).2,
               dictSet args "custom_predicates"
                 (.predsRef (st.allocPred [⟨ek, id⟩]).1)) := by
          simp only [munglePredicate, hc]
        rw [hme]
        have ha := storeExt_allocPred st0 st [⟨ek, id⟩] hext
        refine ⟨ha.1, ?_⟩
        intro r hr
        rw [dictGet_dictSet_self] at hr
        cases hr
        exact ha.2
      | other nn =>
        have hme : munglePredicate st args ⟨ek, .call id⟩
            = ((st.allocPred [⟨ek, id⟩]).2,
               dictSet args "custom_predicates"
                 (.predsRef (st.allocPred [⟨ek, id⟩]).1)) := by
          simp only [munglePredicate, hc]
        rw [hme]
        have ha := storeExt_allocPred st0 st [⟨ek, id⟩] hext
        refine ⟨ha.1, ?_⟩
        intro r hr
        rw [dictGet_dictSet_self] at hr
        cases hr
        exact ha.2

theorem mungleList_preserves (st0 : Store) (pl : List PredDef) :
    ∀ (st : Store) (args : Args), StoreExt st0 st →
    PredsOk st0.predLists.length args →
    StoreExt st0 (_mungle_view_args st args pl).1
      ∧ PredsOk st0.predLists.length (_mungle_view_args st args pl).2 := by
  induction pl with
  | nil => intro st args h1 h2; exact ⟨h1, h2⟩
  | cons e rest ih =>
    intro st args h1 h2
    have hm := mungle_preserves st0 st args e h1 h2
    exact ih (munglePredicate st args e).1 (munglePredicate st args e).2
      hm.1 hm.2

theorem registerFold_preserves (st0 : Store) (L : List (List PredDef)) :
    ∀ (st : Store) (args : Args) (regs : List Args), StoreExt st0 st →
    PredsOk st0.predLists.length args →
    StoreExt st0 ((L.foldl registerStep (st, args, regs)).1) := by
  induction L with
  | nil => intro st args regs h1 _; exact h1
  | cons pl rest ih =>
    intro st args regs h1 h2
    have hm := mungleList_preserves st0 pl st args h1 h2
    exact ih (_mungle_view_args st args pl).1 (_mungle_view_args st args pl).2
      (regs ++ [(_mungle_view_args st args pl).2]) hm.1 hm.2

theorem registerDefinitionViews_store_of_ne (st : Store) (args : Args)
    (h : (_pop_complex_predicates args).1 ≠ []) :
    (registerDefinitionViews st args).1
      = (((_pop_complex_predicates args).1 ++ empty_contenttype).foldl
          registerStep (st, (_pop_complex_predicates args).2, [])).1 := by
  have hf : (_pop_complex_predicates args).1.isEmpty = false := by
    cases hcc : (_pop_complex_predicates args).1 with
    | nil => exact absurd hcc h
    | cons x xs => rfl
  unfold registerDefinitionViews
  simp [hf]

theorem registerDefinitionViews_preserves (st0 st : Store) (args : Args)
    (h1 : StoreExt st0 st) (h2 : PredsOk st0.predLists.length args) :
    StoreExt st0 (registerDefinitionViews st args).1 := by
  have h2e : PredsOk st0.predLists.length (_pop_complex_predicates args).2 :=
    predsOk_dictErase _ _ _ (predsOk_dictErase _ _ _ h2)
  by_cases he : (_pop_complex_predicates args).1 = []
  · have hst : (registerDefinitionViews st args).1 = st := by
      unfold registerDefinitionViews
      simp [he]
    rw [hst]
    exact h1
  · rw [registerDefinitionViews_store_of_ne st args he]
    exact registerFold_preserves st0 _ st _ [] h1 h2e

theorem deepcopyVal_preserves (st0 st : Store) (x : ArgVal)
    (h : StoreExt st0 st) :
    StoreExt st0 (deepcopyVal st x).1
      ∧ (∀ r, (deepcopyVal st x).2 = .predsRef r →
          st0.predLists.length ≤ r) := by
  cases x with
  | predsRef r =>
    have ha := storeExt_allocPred st0 st (st.getPred r) h
    refine ⟨ha.1, fun r' hr' => ?_⟩
    cases hr'
    exact ha.2
  | valsRef r =>
    have ha := storeExt_allocVal st0 st (st.getVal r) h
    refine ⟨ha.1, fun r' hr' => ?_⟩
    cases hr'
  | v y => exact ⟨h, fun r' hr' => by cases hr'⟩
  | vlist ys => exact ⟨h, fun r' hr' => by cases hr'⟩
  | boolV b => exact ⟨h, fun r' hr' => by cases hr'⟩
  | other n => exact ⟨h, fun r' hr' => by cases hr'⟩

/-- Every custom_predicates entry of an association list is bounded. -/
def PredsOkAll (n : Nat) (args : Args) : Prop :=
  ∀ kv ∈ args, kv.1 = "custom_predicates" →
    ∀ r, kv.2 = ArgVal.predsRef r → n ≤ r

theorem dictGet_mem (d : Args) (k : String) (v : ArgVal)
    (h : dictGet d k = some v) : (k, v) ∈ d := by
  induction d with
  | nil => simp [dictGet] at h
  | cons kv rest ih =>
    obtain ⟨a, b⟩ := kv
    by_cases hk : a = k
    · subst hk
      simp [dictGet] at h
      subst h
      exact List.mem_cons_self _ _
    · simp [dictGet, hk] at h
      exact List.mem_cons_of_mem _ (ih h)

theorem predsOk_of_all (n : Nat) (args : Args) (h : PredsOkAll n args) :
    PredsOk n args := by
  intro r hr
  exact h _ (dictGet_mem args "custom_predicates" _ hr) rfl r rfl

theorem deepcopyFold_preserves (st0 : Store) (args : List (String × ArgVal)) :
    ∀ (st : Store) (acc : Args), StoreExt st0 st →
    PredsOkAll st0.predLists.length acc →
    StoreExt st0 (args.foldl deepcopyStep (st, acc)).1
      ∧ PredsOkAll st0.predLists.length
          (args.foldl deepcopyStep (st, acc)).2 := by
  induction args with
  | nil => intro st acc h1 h2; exact ⟨h1, h2⟩
  | cons kv rest ih =>
    intro st acc h1 h2
    by_cases hk : kv.1 ∈ cornice_parameters
    · have hstep : deepcopyStep (st, acc) kv = (st, acc ++ [kv]) := by
        simp only [deepcopyStep, if_pos hk]
      rw [List.foldl_cons, hstep]
      refine ih st (acc ++ [kv]) h1 ?_
      intro kv' hm hcust r hr
      rcases List.mem_append.mp hm with h' | h'
      · exact h2 kv' h' hcust r hr
      · have : kv' = kv := List.mem_singleton.mp h'
        subst this
        have : kv'.1 ≠ "custom_predicates" := by
          intro he
          rw [he] at hk
          exact absurd hk (by decide)
        exact absurd hcust this
    · have hstep : deepcopyStep (st, acc) kv
          = ((deepcopyVal st kv.2).1,
             acc ++ [(kv.1, (deepcopyVal st kv.2).2)]) := by
        simp only [deepcopyStep, if_neg hk]
      rw [List.foldl_cons, hstep]
      have hdv := deepcopyVal_preserves st0 st kv.2 h1
      refine ih _ _ hdv.1 ?_
      intro kv' hm hcust r hr
      rcases List.mem_append.mp hm with h' | h'
      · exact h2 kv' h' hcust r hr
      · have : kv' = (kv.1, (deepcopyVal st kv.2).2) :=
          List.mem_singleton.mp h'
        subst this
        exact hdv.2 r hr

theorem deepcopyArgs_preserves (st0 st : Store) (args : Args)
    (h : StoreExt st0 st) :
    StoreExt st0 (deepcopyArgs st args).1
      ∧ PredsOk st0.predLists.length (deepcopyArgs st args).2 := by
  have hf := deepcopyFold_preserves st0 args st [] h (fun kv hm => by
    simp at hm)
  exact ⟨hf.1, predsOk_of_all _ _ hf.2⟩

theorem registerDefinitionStep_preserves (st0 : Store) (corsV : Nat)
    (config : Config) (service : Service) (rn : String)
    (hcors : service.cors_enabled = false)
    (acc : Store × List Registration) (d : Definition)
    (h : StoreExt st0 acc.1) :
    StoreExt st0 (registerDefinitionStep corsV config service rn acc d).1 := by
  have hdc := deepcopyArgs_preserves st0 acc.1 d.args h
  have hpo : PredsOk st0.predLists.length
      (stripKeys (stripKeys (dictSet (deepcopyArgs acc.1 d.args).2
        "request_method" (.v (.str d.method))) cornice_parameters)
        (config.route_predicates.filter
          fun p => p ∉ config.view_predicates)) :=
    predsOk_stripKeys _ _ _ (predsOk_stripKeys _ _ _
      (predsOk_dictSet_ne _ _ _ _ (by decide) hdc.2))
  show StoreExt st0 (registerDefinitionViews
      (if service.cors_enabled then
        insertCorsValidator (deepcopyArgs acc.1 d.args).1
          (dictSet (deepcopyArgs acc.1 d.args).2 "request_method"
            (.v (.str d.method))) corsV
       else (deepcopyArgs acc.1 d.args).1)
      (stripKeys (stripKeys (dictSet (deepcopyArgs acc.1 d.args).2
        "request_method" (.v (.str d.method))) cornice_parameters)
        (config.route_predicates.filter
          fun p => p ∉ config.view_predicates))).1
  rw [hcors]
  exact registerDefinitionViews_preserves st0 _ _ hdc.1 hpo

theorem registerLoop_preserves (st0 : Store) (corsV : Nat) (config : Config)
    (service : Service) (rn : String) (hcors : service.cors_enabled = false)
    (defs : List Definition) :
    ∀ acc : Store × List Registration, StoreExt st0 acc.1 →
    StoreExt st0 ((defs.foldl
      (registerDefinitionStep corsV config service rn) acc).1) := by
  induction defs with
  | nil => intro acc h; exact h
  | cons d rest ih =>
    intro acc h
    rw [List.foldl_cons]
    exact ih _ (registerDefinitionStep_preserves st0 corsV config service rn
      hcors acc d h)

/-- C7 (amended): with CORS disabled register_service_views only reads
the service: the returned service equals the input one, and every heap
list object existing before registration, the stored validators lists and
custom_predicates lists of the definitions among them, still holds its
content afterwards. With CORS enabled the claim fails: see the
counterexample, where the service gains an OPTIONS definition and the
stored validators list of a definition is mutated in place. -/
theorem register_service_views_no_cors_frame (corsV pv : Nat)
    (config : Config) (st : Store) (s : Service)
    (h : s.cors_enabled = false) :
    (register_service_views corsV pv config st s).service = s ∧
    (∀ r, r < st.predLists.length →
      (register_service_views corsV pv config st s).store.getPred r
        = st.getPred r) ∧
    (∀ r, r < st.valLists.length →
      (register_service_views corsV pv config st s).store.getVal r
        = st.getVal r) := by
  have hosv : (if s.cors_enabled = true ∧ "OPTIONS" ∉ s.defined_methods
      then Service.add_view st s "options" pv else (st, s)) = (st, s) := by
    rw [if_neg]
    rintro ⟨hc, _⟩
    rw [h] at hc
    exact absurd hc (by simp)
  have hserv : (register_service_views corsV pv config st s).service = s := by
    simp [register_service_views, hosv]
  have hstore : (register_service_views corsV pv config st s).store
      = ((s.definitions.foldl (registerDefinitionStep corsV config s
          (match s.pyramid_route with | some r => r | none => s.name))
          (st, [])).1) := by
    simp [register_service_views, hosv]
  have hext := registerLoop_preserves st corsV config s
    (match s.pyramid_route with | some r => r | none => s.name) h
    s.definitions (st, []) (storeExt_refl st)
  exact ⟨hserv, fun r hr => by rw [hstore]; exact hext.2.2.1 r hr,
    fun r hr => by rw [hstore]; exact hext.2.2.2 r hr⟩

def c7wService : Service :=
  ⟨"svc", "/svc", none, none, [], false, 7,
   [⟨"GET", 1, [("validators", .valsRef 0),
                ("accept", .v (.str "application/json"))]⟩]⟩

def c7wStore : Store := ⟨[], [[7]]⟩

def c7config : Config := ⟨"", [], []⟩

theorem register_service_views_no_cors_frame_witness :
    (register_service_views 99 50 c7config c7wStore c7wService).service
        = c7wService ∧
    (∀ r, r < c7wStore.predLists.length →
      (register_service_views 99 50 c7config c7wStore c7wService).store.getPred
          r = c7wStore.getPred r) ∧
    (∀ r, r < c7wStore.valLists.length →
      (register_service_views 99 50 c7config c7wStore c7wService).store.getVal
          r = c7wStore.getVal r) :=
  register_service_views_no_cors_frame 99 50 c7config c7wStore c7wService
    (by decide)

def c7service : Service :=
  ⟨"svc", "/svc", none, none, [], true, 7,
   [⟨"GET", 1, [("validators", .valsRef 0)]⟩]⟩

def c7store : Store := ⟨[], [[7]]⟩

/-- C7 counterexample: with CORS enabled registration mutates the service
and its stored state. An OPTIONS definition is added to the service, and
the CORS validator (id 99) is inserted in place at position 0 of the
stored validators list object (reference 0) that the definition shares
with the service, which afterwards reads [99, 7] instead of [7]. -/
theorem register_service_views_mutates_service_with_cors :
    (register_service_views 99 50 c7config c7store c7service).service
        ≠ c7service ∧
    (register_service_views 99 50 c7config c7store
        c7service).service.definitions.length = 2 ∧
    c7store.getVal 0 = [7] ∧
    (register_service_views 99 50 c7config c7store c7service).store.getVal 0
        = [99, 7] := by
  refine ⟨by decide, by decide, by decide, by decide⟩
